import Mathlib

/-!
Shallow embedding of the `go-context` repository (packages `memoize`, `cext`,
`dvow`, `helper`) and proofs about its specification.

Go interface values are modelled as `GoVal` (a dynamic type plus an underlying
value); Go `nil` interfaces are `Option GoVal = none`.  Go errors are the
inductive `GoError`; `errors.Wrap` is the `wrap` constructor.  A Go
`context.Context` is modelled by `GoCtx`: its deadline, the identity of its
`Done` channel, its `Err()` result and its keyed-value lookup function.

The memoize cache and promise (files `cache.go` / `promise.go`, the revision
with `State`-based promises) are embedded twice, matching how the claims use
them: a sequential functional semantics (`Memoize.promiseGet`,
`Memoize.cacheExecute`) for single-caller claims, and a small-step
interleaving transition system (`Memoize.PSys`, `Memoize.Step`) for the
single-flight concurrency claim about `promise.get` / `promise.changeState`.
-/

/-- a Go dynamic type: its reflected name string (`reflect.Type.String()`)
and whether values of the type support `==` (`reflect.Type.Comparable()`). -/
structure GoType where
  name : String
  comparable : Bool
deriving DecidableEq, Repr

/-- a non-nil Go interface value: its dynamic type plus its underlying value.
Go `==` on two interface values is true iff the dynamic types and the
underlying values agree, i.e. structural equality of `GoVal`. -/
structure GoVal where
  ty : GoType
  val : Nat
deriving DecidableEq, Repr

/-- a Go error value.  The named sentinel errors come from `errors.go`;
`wrap b msg` is `github.com/pkg/errors.Wrap(b, msg)`, which annotates the
base error `b` with the message `msg`. -/
inductive GoError where
  | panicExecutingMemoizedFn
  | cacheAlreadyDestroyed
  | memoizedFnCannotBeNil
  | ctxCanceled
  | deadlineExceeded
  | wrap (base : GoError) (msg : String)
  | other (msg : String)
deriving DecidableEq, Repr

/-- a Go `context.Context`, abstracted to the four methods of the interface:
`Deadline()` (`none` models `ok = false`), the identity of the channel
returned by `Done()`, the result of `Err()`, and keyed `Value` lookup. -/
structure GoCtx where
  deadline : Option Nat
  doneId : Nat
  err : Option GoError
  value : GoVal → Option GoVal

/-- helper.IsComparable: `v != nil && reflect.TypeOf(v).Comparable()`. -/
def helperIsComparable (v : Option GoVal) : Bool :=
  match v with
  | none => false
  | some x => x.ty.comparable

/-- helper.IsSameType: `v1 != nil && v2 != nil && reflect.TypeOf(v1) == reflect.TypeOf(v2)`. -/
def helperIsSameType (v1 v2 : Option GoVal) : Bool :=
  match v1, v2 with
  | some a, some b => a.ty == b.ty
  | _, _ => false

namespace Cext

/-- cext.Delegate (`delegate.go`): returns a context that keeps all values of
`valueCtx` while taking its deadline, done channel and error from `cancelCtx`.
Each field is the corresponding forwarding method of `delegatingContext`. -/
def Delegate (cancelCtx valueCtx : GoCtx) : GoCtx :=
  { deadline := cancelCtx.deadline
    doneId := cancelCtx.doneId
    err := cancelCtx.err
    value := fun k => valueCtx.value k }

end Cext

namespace Memoize

/-- a single invocation of a memoized Go function either returns a
`(result, err)` pair or panics with some value (rendered as a string by
`fmt.Sprintf("%v", r)`). -/
inductive FnRes where
  | ret (value : Option GoVal) (err : Option GoError)
  | panics (msg : String)

/-- memoize.Function: `func(ctx context.Context) (interface{}, error)`,
together with the possibility of panicking. -/
def Function := GoCtx → FnRes

/-- the string produced by `debug.Stack()` inside `doExecute`; its precise
content is runtime-dependent, so it is abstracted to a fixed token. -/
def stackTraceString : String := "goroutine stack"

/-- memoize.doExecute (`cache.go` lines 168-189): invokes `memoizedFn ctx`
within a panic barrier.  A panic `r` is recovered and converted into
`(nil, errors.Wrap(ErrPanicExecutingMemoizedFn, fmt.Sprintf("%v \n %v", r, stackTrace)))`. -/
def doExecute (ctx : GoCtx) (memoizedFn : Function) : Option GoVal × Option GoError :=
  match memoizedFn ctx with
  | .ret v e => (v, e)
  | .panics msg =>
      (none, some (.wrap .panicExecutingMemoizedFn (msg ++ " \n " ++ stackTraceString)))

/-- memoize.Outcome: the outcome of executing a memoized function. -/
structure Outcome where
  value : Option GoVal
  err : Option GoError
deriving DecidableEq, Repr

/-- memoize.Extra: additional details about a returned outcome. -/
structure Extra where
  isMemoized : Bool
  isExecuted : Bool
deriving DecidableEq, Repr

/-- memoize.State (`promise.go`): the state enumeration for a promise. -/
inductive PState where
  | isCreated
  | isExecutedS
  | isPopulated
deriving DecidableEq, Repr

/-- memoize.promise: the future result of a call to a function.  `rootCtx` is
`none` for promises built by `completedPromise` (which leaves the field nil);
`doneClosed` records whether the `done` channel has been closed; `outcome`
starts at its zero value and is set when execution completes. -/
structure Promise where
  executionKeyType : String
  rootCtx : Option GoCtx
  state : PState
  doneClosed : Bool
  function : Option Function
  outcome : Outcome

/-- memoize.newPromise: a fresh promise in state `IsCreated` with an open
`done` channel holding the given (non-nil) function. -/
def newPromise (executionKeyType : String) (rootCtx : GoCtx) (function : Function) : Promise :=
  { executionKeyType := executionKeyType
    rootCtx := some rootCtx
    state := .isCreated
    doneClosed := false
    function := some function
    outcome := ⟨none, none⟩ }

/-- memoize.completedPromise: a promise that has already completed with the
given outcome, in state `IsPopulated` with `done` closed at construction. -/
def completedPromise (debugStr : String) (outcome : Outcome) : Promise :=
  { executionKeyType := debugStr
    rootCtx := none
    state := .isPopulated
    doneClosed := true
    function := none
    outcome := outcome }

/-- memoize.promise.isExecuted: whether `state == IsExecuted` (as opposed to
`IsCreated` or `IsPopulated`). -/
def Promise.isExecuted (p : Promise) : Bool :=
  p.state == .isExecutedS

/-- the result of a sequential (single-caller) run of `promise.get` or
`cache.execute`: either the call finishes, yielding the returned values, the
updated shared state and the number of times the memoized function was
invoked, or the caller blocks forever (its `select` never fires). -/
inductive GetRes where
  | fin (o : Outcome) (p : Promise) (invocations : Nat)
  | blocked

/-- memoize.promise.get (`promise.go` lines 108-121), single-caller
sequential semantics.  If the caller's context is already cancelled, return
`{nil, ctx.Err()}` without touching state.  Otherwise attempt the CAS
`changeState(IsCreated, IsExecuted)`: the winner runs the function (under
`Delegate(rootCtx, ctx)`, inside the `doExecute` panic barrier), publishes
the outcome, clears the function, closes `done` and returns the outcome.
A loser falls through to `wait`, which (with an uncancelled context) returns
the stored outcome once `done` is closed, and otherwise blocks. -/
def promiseGet (p : Promise) (ctx : GoCtx) : GetRes :=
  if ctx.err ≠ none then
    .fin ⟨none, ctx.err⟩ p 0
  else if p.state = .isCreated then
    match p.function, p.rootCtx with
    | some fn, some root =>
        let r := doExecute (Cext.Delegate root ctx) fn
        .fin ⟨r.1, r.2⟩
          { p with state := .isExecutedS, doneClosed := true, function := none
                   outcome := ⟨r.1, r.2⟩ } 1
    | _, _ => .blocked
  else if p.doneClosed then
    .fin p.outcome p 0
  else
    .blocked

/-- the promise table `map[interface{}]*promise`: an association list with
unique keys.  Keys are non-nil comparable Go interface values. -/
abbrev PromMap := List (GoVal × Promise)

/-- map lookup `c.promises[executionKey]`. -/
def mapLookup (m : PromMap) (k : GoVal) : Option Promise :=
  match m with
  | [] => none
  | (k0, p0) :: rest => if k0 = k then some p0 else mapLookup rest k

/-- map assignment `c.promises[executionKey] = p`: replaces the entry if the
key is present, otherwise appends it. -/
def mapInsert (m : PromMap) (k : GoVal) (p : Promise) : PromMap :=
  match m with
  | [] => [(k, p)]
  | (k0, p0) :: rest => if k0 = k then (k, p) :: rest else (k0, p0) :: mapInsert rest k p

/-- memoize.cache (`cache.go`): the root context, the destroyed flag, and the
promise table (`none` models a nil map). -/
structure Cache where
  rootCtx : GoCtx
  isDestroyed : Bool
  promises : Option PromMap

/-- memoize.newCache: a non-destroyed cache with an empty promise map. -/
def newCache (rootCtx : GoCtx) : Cache :=
  { rootCtx := rootCtx, isDestroyed := false, promises := some [] }

/-- memoize.cache.destroy: sets the destroyed flag and drops the map. -/
def cacheDestroy (c : Cache) : Cache :=
  { c with isDestroyed := true, promises := none }

/-- memoize.cache.extractExecutionKeyType: `reflect.TypeOf(executionKey).String()`. -/
def extractExecutionKeyType (executionKey : GoVal) : String :=
  executionKey.ty.name

/-- memoize.cache.take (`cache.go` lines 37-57): a no-op on a destroyed
cache; otherwise allocates the map if nil and, for each entry with a non-nil
key, installs a pre-completed promise, overwriting any existing entry.  (The
Go map assignment would panic on a key of a non-comparable dynamic type; the
model is used with comparable keys only.)  Entries are processed in list
order, standing for one iteration order of the Go map. -/
def cacheTake (c : Cache) (entries : List (Option GoVal × Outcome)) : Cache :=
  if c.isDestroyed then c
  else
    let step : PromMap → Option GoVal × Outcome → PromMap := fun m e =>
      match e.1 with
      | none => m
      | some k => mapInsert m k (completedPromise (extractExecutionKeyType k) e.2)
    { c with promises := some (entries.foldl step (c.promises.getD [])) }

/-- memoize.cache.createPromise: builds `newPromise` with the key's reflected
type string and the cache's root context, allocates the map if nil, and
installs the promise. -/
def createPromise (c : Cache) (executionKey : GoVal) (function : Function) : Promise × Cache :=
  let p := newPromise (extractExecutionKeyType executionKey) c.rootCtx function
  (p, { c with promises := some (mapInsert (c.promises.getD []) executionKey p) })

/-- memoize.cache.promise (`cache.go` lines 102-118): under the lock, fails
with `ErrCacheAlreadyDestroyed` on a destroyed cache; reuses the promise
stored at the key if present; otherwise creates and installs a new one. -/
def cachePromise (c : Cache) (executionKey : GoVal) (function : Function) :
    (Option Promise × Option GoError) × Cache :=
  if c.isDestroyed then ((none, some .cacheAlreadyDestroyed), c)
  else
    match mapLookup (c.promises.getD []) executionKey with
    | some p => ((some p, none), c)
    | none =>
        let pc := createPromise c executionKey function
        ((some pc.1, none), pc.2)

/-- the result of a sequential run of `cache.execute`: the returned
`(Outcome, Extra)` pair, the updated cache, and the number of invocations of
the memoized function, or a marker that the caller blocked. -/
inductive ExecRes where
  | fin (o : Outcome) (e : Extra) (c : Cache) (invocations : Nat)
  | blocked (c : Cache)

/-- memoize.cache.execute (`cache.go` lines 59-100), single-caller
sequential semantics.  A nil function yields `ErrMemoizedFnCannotBeNil` with
`{false, false}`.  A key that is nil or of a non-comparable dynamic type is
executed synchronously under the caller's context within the panic barrier,
yielding `{false, true}` and leaving the cache untouched.  Otherwise the
promise is resolved via `cache.promise` and `promise.get` is called; the
returned `Extra` is `{IsMemoized: true, IsExecuted: p.isExecuted()}`, with
`isExecuted` read after `get` returns. -/
def cacheExecute (c : Cache) (ctx : GoCtx) (executionKey : Option GoVal)
    (memoizedFn : Option Function) : ExecRes :=
  match memoizedFn with
  | none => .fin ⟨none, some .memoizedFnCannotBeNil⟩ ⟨false, false⟩ c 0
  | some fn =>
    if helperIsComparable executionKey = false then
      let r := doExecute ctx fn
      .fin ⟨r.1, r.2⟩ ⟨false, true⟩ c 1
    else
      match executionKey with
      | none => .blocked c
      | some k =>
        match cachePromise c k fn with
        | ((none, e), c1) => .fin ⟨none, e⟩ ⟨false, false⟩ c1 0
        | ((some p, _), c1) =>
          match promiseGet p ctx with
          | .fin o p1 n =>
              .fin o ⟨true, p1.isExecuted⟩
                { c1 with promises := some (mapInsert (c1.promises.getD []) k p1) } n
          | .blocked => .blocked c1

/-- memoize.cache.findPromises (`cache.go` lines 131-162): returns nil on a
destroyed cache; with a nil key returns a fresh map holding every entry of
the table; with a non-nil key returns a fresh map holding exactly the entries
whose promise's `executionKeyType` equals the key's reflected type string. -/
def cacheFindPromises (c : Cache) (executionKey : Option GoVal) : Option PromMap :=
  let returnAll := executionKey.isNone
  if c.isDestroyed then none
  else
    let keyType :=
      match executionKey with
      | none => ""
      | some k => extractExecutionKeyType k
    some ((c.promises.getD []).filter
      (fun e => returnAll || e.2.executionKeyType == keyType))

end Memoize

open Memoize

/-- a comparable Go type (`int`). -/
def tInt : GoType := ⟨"int", true⟩

/-- a non-comparable Go type (`[]int`, a slice type). -/
def tSlice : GoType := ⟨"[]int", false⟩

/-- a concrete comparable key. -/
def kInt : GoVal := ⟨tInt, 7⟩

/-- a concrete key whose dynamic type is not equality-comparable. -/
def kSlice : GoVal := ⟨tSlice, 0⟩

/-- a background context: no deadline, not cancelled, no values. -/
def ctxPlain : GoCtx := ⟨none, 0, none, fun _ => none⟩

/-- a context that is already cancelled (`Err() = context.Canceled`). -/
def ctxCancelled : GoCtx := ⟨none, 0, some .ctxCanceled, fun _ => none⟩

/-- a memoized function that returns `(1, nil)` on every call. -/
def fnConst : Memoize.Function := fun _ => .ret (some ⟨tInt, 1⟩) none

/-- a fresh cache rooted at the background context. -/
def baseCache : Memoize.Cache := newCache ctxPlain

/-- a destroyed cache. -/
def destroyedCache : Memoize.Cache := cacheDestroy baseCache

/-- a pre-populated outcome `{2, AnError}` used in the C3 scenario. -/
def outcome0 : Memoize.Outcome := ⟨some ⟨tInt, 2⟩, some (.other "AnError")⟩

/-- the cache obtained by pre-populating `baseCache` with `kInt -> outcome0`. -/
def cacheP : Memoize.Cache := cacheTake baseCache [(some kInt, outcome0)]

namespace Cext

/-- cext.breadcrumb (`cyclic.go`): a node of the breadcrumb chain.  `id` is
the breadcrumb ID (non-nil, since `WithAcyclicBreadcrumb` rejects nil as
non-comparable); `parentCtx` stands for the context captured at insertion
time, represented by the breadcrumb chain that context carried (the only part
of it the walk in `findPrevBreadcrumb` consults); `prev` is the previous
breadcrumb of the same ID type, or none. -/
inductive Breadcrumb where
  | node (id : GoVal) (parentCtx : Option Breadcrumb) (prev : Option Breadcrumb)

/-- the `id` field of a breadcrumb. -/
def Breadcrumb.id : Breadcrumb → GoVal
  | .node i _ _ => i

/-- the `parentCtx` field of a breadcrumb (as its breadcrumb chain). -/
def Breadcrumb.parentCtx : Breadcrumb → Option Breadcrumb
  | .node _ p _ => p

/-- the `prev` field of a breadcrumb. -/
def Breadcrumb.prev : Breadcrumb → Option Breadcrumb
  | .node _ _ q => q

/-- cext.findPrevBreadcrumb (`cyclic.go` lines 42-53): returns the nearest
breadcrumb in the context chain whose ID has the same dynamic type as the
given ID, walking through `parentCtx` links, or none.  A context is
represented by the breadcrumb it carries under the private key, if any. -/
def findPrevBreadcrumb : Option Breadcrumb → GoVal → Option Breadcrumb
  | none, _ => none
  | some (.node i p q), breadcrumbID =>
      if helperIsSameType (some i) (some breadcrumbID) then some (.node i p q)
      else findPrevBreadcrumb p breadcrumbID

/-- the loop inside cext.appendBreadcrumb (`cyclic.go` lines 59-66): walks
`cur := prev; cur = cur.prev; ...` and reports whether some node's `id` is
Go-`==` to the incoming ID. -/
def prevChainContains : Option Breadcrumb → GoVal → Bool
  | none, _ => false
  | some (.node i _ q), breadcrumbID => (i == breadcrumbID) || prevChainContains q breadcrumbID

/-- cext.appendBreadcrumb (`cyclic.go` lines 58-73): `none` models the
`(nil, false)` cycle result; `some b` models `(b, true)`. -/
def appendBreadcrumb (ctx : Option Breadcrumb) (breadcrumbID : GoVal)
    (prev : Option Breadcrumb) : Option Breadcrumb :=
  if prevChainContains prev breadcrumbID then none
  else some (.node breadcrumbID ctx prev)

/-- the observable result of cext.WithAcyclicBreadcrumb: the Go panic on a
non-comparable ID, the `(nil, false)` cycle result, or `(ctx2, true)` where
`ctx2` carries the new breadcrumb under the private key. -/
inductive BCRes where
  | panicked
  | cycle
  | ok (newBc : Breadcrumb)

/-- cext.WithAcyclicBreadcrumb (`cyclic.go` lines 19-32): panics on a
non-comparable ID; otherwise locates the previous same-typed breadcrumb and
appends, reporting a cycle when the same ID already occurs along the `prev`
walk. -/
def WithAcyclicBreadcrumb (ctx : Option Breadcrumb) (breadcrumbID : GoVal) : BCRes :=
  if helperIsComparable (some breadcrumbID) = false then .panicked
  else
    match appendBreadcrumb ctx breadcrumbID (findPrevBreadcrumb ctx breadcrumbID) with
    | none => .cycle
    | some b => .ok b

/-- the list of breadcrumbs reachable through `parentCtx` links (the
breadcrumb ancestors of a context, nearest first). -/
def parentChain : Option Breadcrumb → List Breadcrumb
  | none => []
  | some (.node i p q) => .node i p q :: parentChain p

/-- the list of breadcrumbs reachable through `prev` links, nearest first. -/
def prevChain : Option Breadcrumb → List Breadcrumb
  | none => []
  | some (.node i p q) => .node i p q :: prevChain q

/-- breadcrumb chains actually reachable through the package API: the
breadcrumb key is private to the package, so a context either carries no
breadcrumb or one produced by a successful `WithAcyclicBreadcrumb` on a
reachable chain. -/
inductive WFChain : Option Breadcrumb → Prop where
  | nil : WFChain none
  | push (c : Option Breadcrumb) (id : GoVal) (b : Breadcrumb) :
      WFChain c → WithAcyclicBreadcrumb c id = .ok b → WFChain (some b)

end Cext

/-- a breadcrumb ID of a first user-defined comparable type, value 1. -/
def bcA1 : GoVal := ⟨⟨"main.idA", true⟩, 1⟩

/-- a breadcrumb ID of the same type as `bcA1`, value 2. -/
def bcA2 : GoVal := ⟨⟨"main.idA", true⟩, 2⟩

/-- a breadcrumb ID of a second type, sharing its value with `bcA1`. -/
def bcB1 : GoVal := ⟨⟨"main.idB", true⟩, 1⟩

/-- the breadcrumb produced by inserting `bcA1` into an empty chain. -/
def bcNode1 : Cext.Breadcrumb := .node bcA1 none none

/-- the breadcrumb produced by then inserting `bcA2`. -/
def bcNode2 : Cext.Breadcrumb := .node bcA2 (some bcNode1) (some bcNode1)

namespace Dvow

/-- a Go `map[string]interface{}` of overwritten variables: an association
list with unique keys; values may be nil interface values. -/
abbrev VarMap := List (String × Option GoVal)

/-- presence-aware lookup `value, isPresent := m[name]`: `some v` when the
name is present with (possibly nil) value `v`. -/
def varLookup (m : VarMap) (name : String) : Option (Option GoVal) :=
  match m with
  | [] => none
  | (n, v) :: rest => if n = name then some v else varLookup rest name

/-- a heap of mutable Go maps: `data r` is the current contents of the map
whose reference is `r`, and references below `next` are allocated.  Go maps
are reference values, so mutating a map through one reference is visible
through every alias of that reference; the heap makes this aliasing explicit
so that the defensive-copy claim is expressible. -/
structure Heap where
  data : Nat → VarMap
  next : Nat

/-- pointwise update of the backing store at one reference. -/
def updateData (d : Nat → VarMap) (r : Nat) (m : VarMap) : Nat → VarMap :=
  fun x => if x = r then m else d x

/-- mutation of the Go map at reference `r` (adding, removing or replacing
entries all amount to replacing the contents). -/
def mutateMap (h : Heap) (r : Nat) (m : VarMap) : Heap :=
  { h with data := updateData h.data r m }

/-- dvow.Value: the `overwriteValue` wrapper around a raw value. -/
structure OverwriteValue where
  value : Option GoVal
deriving DecidableEq, Repr

/-- dvow.dynamicOverwritingStorage (`storage.go`): the parent storage from
the parent context (or none) and the reference to the map of variables this
node holds (always a clone allocated by `WithOverwrittenVariables`). -/
inductive StorageM where
  | mk (parent : Option StorageM) (vars : Nat)

/-- the `parent` field of a storage. -/
def StorageM.parent : StorageM → Option StorageM
  | .mk p _ => p

/-- the `variables` map reference of a storage (named `vars` because
`variables` is reserved in Lean). -/
def StorageM.vars : StorageM → Nat
  | .mk _ v => v

/-- every map reference held along a storage chain. -/
def storageRefs : StorageM → List Nat
  | .mk none v => [v]
  | .mk (some s) v => v :: storageRefs s

/-- every map reference held by the storage a context carries, if any. -/
def storageRefsOpt : Option StorageM → List Nat
  | none => []
  | some st => storageRefs st

/-- dvow.dynamicOverwritingStorage.Get (`storage.go` lines 16-28): a local
hit is wrapped and returned; otherwise the parent is consulted; otherwise
nil. -/
def storageGet (h : Heap) : StorageM → String → Option OverwriteValue
  | .mk none vref, name =>
      match varLookup (h.data vref) name with
      | some v => some ⟨v⟩
      | none => none
  | .mk (some s) vref, name =>
      match varLookup (h.data vref) name with
      | some v => some ⟨v⟩
      | none => storageGet h s name

/-- dvow.WithOverwrittenVariables (`context.go` lines 21-38): with an empty
or nil input map, the context is returned unchanged; otherwise the entries of
the input map are copied into a freshly allocated map and a storage node
holding the copy, with the context's current storage as parent, is attached.
The context is represented by the storage it carries, if any. -/
def WithOverwrittenVariables (h : Heap) (s : Option StorageM) (mref : Nat) :
    Heap × Option StorageM :=
  if (h.data mref).isEmpty then (h, s)
  else
    (⟨updateData h.data h.next (h.data mref), h.next + 1⟩, some (.mk s h.next))

/-- dvow.GetOverwrittenValue (`context.go` lines 52-59): nil when the context
carries no storage, otherwise `storage.Get(name)`. -/
def GetOverwrittenValue (h : Heap) (s : Option StorageM) (name : String) :
    Option OverwriteValue :=
  match s with
  | none => none
  | some st => storageGet h st name

end Dvow

/-- a concrete one-map heap holding `{"test" -> "random"}` at reference 0
(scenario E6). -/
def heapE6 : Dvow.Heap :=
  ⟨Dvow.updateData (fun _ => []) 0 [("test", some ⟨⟨"string", true⟩, 42⟩)], 1⟩

namespace Memoize

/-- thread-local control state of one caller running promise.get
(`promise.go` lines 108-121): before the `ctx.Err()` check; past a nil
`ctx.Err()`; blocked in `wait`'s select; returned `{nil, ctx.Err()}`; or
returned the promise outcome. -/
inductive TState where
  | start
  | checked
  | waiting
  | retCancelled
  | retOutcome (o : Outcome)
deriving DecidableEq, Repr

/-- phase of the executor goroutine spawned by promise.run: not spawned;
spawned but `doExecute` not yet returned; `doExecute` returned `o` (which it
always does, panics included); or outcome stored, function cleared and
`done` closed. -/
inductive WPhase where
  | idle
  | running
  | finished (o : Outcome)
  | published
deriving DecidableEq, Repr

/-- global state of one promise shared by `M` concurrent callers of
promise.get: the promise fields (`state`, the `done` channel, the published
`outcome`, whether `function` is still set), the executor phase, the total
number of invocations of the memoized function, each caller's control state
and each caller's context-cancelled flag. -/
structure PSys (M : Nat) where
  pstate : PState
  doneClosed : Bool
  outcomeW : Option Outcome
  fnPresent : Bool
  worker : WPhase
  invocations : Nat
  threads : Fin M → TState
  cancelled : Fin M → Bool

/-- the initial state: a promise fresh out of newPromise (state `IsCreated`,
`done` open, function set, outcome unwritten), all callers at the entry of
promise.get with uncancelled contexts. -/
def initSys (M : Nat) : PSys M :=
  { pstate := .isCreated
    doneClosed := false
    outcomeW := none
    fnPresent := true
    worker := .idle
    invocations := 0
    threads := fun _ => .start
    cancelled := fun _ => false }

/-- pointwise update of one thread's control state. -/
def setThread {M : Nat} (ts : Fin M → TState) (i : Fin M) (t : TState) : Fin M → TState :=
  fun j => if j = i then t else ts j

/-- pointwise setting of one thread's cancelled flag. -/
def setCancelled {M : Nat} (cs : Fin M → Bool) (i : Fin M) : Fin M → Bool :=
  fun j => if j = i then true else cs j

/-- one interleaved step of the system of `M` callers on one promise.
`cancel` is the environment cancelling one caller's context (irreversibly).
`checkCancelled` / `checkOk` are the `ctx.Err()` test at the top of get.
`casWin` / `casLose` are `changeState(IsCreated, IsExecuted)` (`promise.go`
lines 167-169): the CAS succeeds exactly from state `IsCreated`, and the
winner spawns the executor and proceeds to `wait`.  `invoke` is the executor
invoking the memoized function through `doExecute`, which always returns an
outcome (panics are converted).  `publish` is the executor storing the
outcome, clearing the function and closing `done` (the channel close is the
release barrier, so the outcome write is visible to any waiter that sees
`done` closed, which is why the two writes form one atomic step from the
waiters' viewpoint).  `waitDone` / `waitCancelled` are the two arms of the
select in `wait`. -/
inductive Step (M : Nat) : PSys M → PSys M → Prop where
  | cancel (s : PSys M) (i : Fin M) :
      Step M s { s with cancelled := setCancelled s.cancelled i }
  | checkCancelled (s : PSys M) (i : Fin M)
      (h1 : s.threads i = .start) (h2 : s.cancelled i = true) :
      Step M s { s with threads := setThread s.threads i .retCancelled }
  | checkOk (s : PSys M) (i : Fin M)
      (h1 : s.threads i = .start) (h2 : s.cancelled i = false) :
      Step M s { s with threads := setThread s.threads i .checked }
  | casWin (s : PSys M) (i : Fin M)
      (h1 : s.threads i = .checked) (h2 : s.pstate = .isCreated) :
      Step M s { s with pstate := .isExecutedS
                        worker := .running
                        threads := setThread s.threads i .waiting }
  | casLose (s : PSys M) (i : Fin M)
      (h1 : s.threads i = .checked) (h2 : s.pstate ≠ .isCreated) :
      Step M s { s with threads := setThread s.threads i .waiting }
  | invoke (s : PSys M) (o : Outcome) (h1 : s.worker = .running) :
      Step M s { s with worker := .finished o
                        invocations := s.invocations + 1 }
  | publish (s : PSys M) (o : Outcome) (h1 : s.worker = .finished o) :
      Step M s { s with worker := .published
                        outcomeW := some o
                        doneClosed := true
                        fnPresent := false }
  | waitDone (s : PSys M) (i : Fin M) (o : Outcome)
      (h1 : s.threads i = .waiting) (h2 : s.doneClosed = true)
      (h3 : s.outcomeW = some o) :
      Step M s { s with threads := setThread s.threads i (.retOutcome o) }
  | waitCancelled (s : PSys M) (i : Fin M)
      (h1 : s.threads i = .waiting) (h2 : s.cancelled i = true) :
      Step M s { s with threads := setThread s.threads i .retCancelled }

/-- the states reachable by any interleaving of `M` concurrent callers of
promise.get on one fresh promise, with arbitrary context cancellations. -/
inductive Reachable (M : Nat) : PSys M → Prop where
  | init : Reachable M (initSys M)
  | step (s s' : PSys M) : Reachable M s → Step M s s' → Reachable M s'

/-- the inductive invariant of the system: the function has run at most
once, and exactly once once the executor is past `running`; the executor is
unspawned exactly while the CAS has not been won; `done` is closed exactly
once the outcome is written, which happens exactly at `publish`; a caller
that returned an outcome returned the published one; and a caller that
returned `{nil, ctx.Err()}` had a cancelled context. -/
structure SysInv {M : Nat} (s : PSys M) : Prop where
  inv_le : s.invocations ≤ 1
  run_zero : (s.worker = .idle ∨ s.worker = .running) ↔ s.invocations = 0
  idle_created : s.worker = .idle ↔ s.pstate = .isCreated
  done_out : s.doneClosed = true ↔ s.outcomeW.isSome
  pub_done : s.worker = .published ↔ s.doneClosed = true
  ret_out : ∀ i o, s.threads i = .retOutcome o → s.outcomeW = some o
  ret_cancel : ∀ i, s.threads i = .retCancelled → s.cancelled i = true

end Memoize

/-- a key stored via `mapInsert` is afterwards found by `mapLookup`. -/
theorem mapLookup_mapInsert_self (m : Memoize.PromMap) (k : GoVal) (p : Memoize.Promise) :
    mapLookup (mapInsert m k p) k = some p := by
  induction m with
  | nil => simp [Memoize.mapInsert, Memoize.mapLookup]
  | cons hd tl ih =>
      by_cases h : hd.1 = k
      · simp [Memoize.mapInsert, Memoize.mapLookup, h]
      · simp [Memoize.mapInsert, Memoize.mapLookup, h, ih]

/-- filtering a promise map with a predicate that is constantly true copies it. -/
theorem filter_true_promMap (m : Memoize.PromMap) :
    m.filter (fun _ => true) = m := by
  induction m with
  | nil => rfl
  | cons hd tl ih => simp [List.filter, ih]

/-- C4.  Panic containment: for every `fn` that panics when invoked,
`doExecute` returns a nil result together with an error wrapping
`ErrPanicExecutingMemoizedFn`, the panic value and the captured stack trace;
the panic is converted into an ordinary return value, so it never propagates
to the caller. -/
theorem c4_panic_containment (ctx : GoCtx) (fn : Memoize.Function) (msg : String)
    (h : fn ctx = .panics msg) :
    Memoize.doExecute ctx fn =
      (none, some (.wrap .panicExecutingMemoizedFn (msg ++ " \n " ++ Memoize.stackTraceString))) := by
  unfold Memoize.doExecute
  rw [h]

/-- C4 witness: a concrete function that panics with "boom". -/
theorem c4_panic_containment_witness :
    Memoize.doExecute ⟨none, 0, none, fun _ => none⟩ (fun _ => .panics "boom") =
      (none, some (.wrap .panicExecutingMemoizedFn ("boom" ++ " \n " ++ Memoize.stackTraceString))) :=
  c4_panic_containment ⟨none, 0, none, fun _ => none⟩ (fun _ => .panics "boom") "boom" rfl

/-- C6.  Delegate forwarding: for every pair of contexts, the context returned
by `Delegate(cancelSource, valueSource)` reports exactly `cancelSource`'s
deadline, done channel and error, and its `Value` lookup returns exactly
`valueSource`'s value for every key. -/
theorem c6_delegate_forwarding (cancelSource valueSource : GoCtx) :
    (Cext.Delegate cancelSource valueSource).deadline = cancelSource.deadline ∧
    (Cext.Delegate cancelSource valueSource).doneId = cancelSource.doneId ∧
    (Cext.Delegate cancelSource valueSource).err = cancelSource.err ∧
    ∀ k, (Cext.Delegate cancelSource valueSource).value k = valueSource.value k :=
  ⟨rfl, rfl, rfl, fun _ => rfl⟩


/-- C5.  Non-comparable key pass-through: on a non-destroyed cache, executing
with a non-nil function and a key whose dynamic type is not
equality-comparable runs the function synchronously under the caller's
context within the `doExecute` panic barrier, returns its `{result, err}`
with `Extra {IsMemoized: false, IsExecuted: true}`, invokes the function
exactly once, and leaves the cache (in particular its promise table)
untouched. -/
theorem c5_noncomparable_passthrough (c : Memoize.Cache) (ctx : GoCtx) (k : GoVal)
    (fn : Memoize.Function) (hc : c.isDestroyed = false)
    (hk : k.ty.comparable = false) :
    Memoize.cacheExecute c ctx (some k) (some fn) =
      .fin ⟨(Memoize.doExecute ctx fn).1, (Memoize.doExecute ctx fn).2⟩ ⟨false, true⟩ c 1 := by
  simp [Memoize.cacheExecute, helperIsComparable, hk]

/-- C5 witness: a concrete slice-typed key on a fresh cache. -/
theorem c5_noncomparable_passthrough_witness :
    Memoize.cacheExecute baseCache ctxPlain (some kSlice) (some fnConst) =
      .fin ⟨(Memoize.doExecute ctxPlain fnConst).1, (Memoize.doExecute ctxPlain fnConst).2⟩
        ⟨false, true⟩ baseCache 1 :=
  c5_noncomparable_passthrough baseCache ctxPlain kSlice fnConst rfl rfl

/-- C2 counterexample: the claim quantifies over every key and every fn, but
`cache.execute` checks `helper.IsComparable(executionKey)` before consulting
the destroyed flag, so a destroyed cache still runs the memoized function for
a key of a non-comparable dynamic type and returns its result with
`{IsMemoized: false, IsExecuted: true}` rather than
`{nil, CacheDestroyed}` with `{false, false}`. -/
theorem c2_destroyed_counterexample :
    Memoize.cacheExecute destroyedCache ctxPlain (some kSlice) (some fnConst) =
      .fin ⟨some ⟨tInt, 1⟩, none⟩ ⟨false, true⟩ destroyedCache 1 ∧
    (⟨some ⟨tInt, 1⟩, none⟩ : Memoize.Outcome) ≠ ⟨none, some .cacheAlreadyDestroyed⟩ ∧
    (⟨false, true⟩ : Memoize.Extra) ≠ ⟨false, false⟩ :=
  ⟨rfl, by decide, by decide⟩

/-- C2 (amended).  Destroyed-cache semantics for comparable keys and non-nil
functions: after `destroy`, `execute(ctx, k, fn)` with a non-nil `fn` and a
non-nil equality-comparable key returns `{nil, CacheDestroyed}` with
`Extra {IsMemoized: false, IsExecuted: false}`, does not invoke `fn` and
leaves the cache unchanged; `destroy` is idempotent and leaves the promise
map null. -/
theorem c2_destroyed_amended (c : Memoize.Cache) (ctx : GoCtx) (k : GoVal)
    (fn : Memoize.Function) (hk : k.ty.comparable = true) :
    Memoize.cacheExecute (cacheDestroy c) ctx (some k) (some fn) =
      .fin ⟨none, some .cacheAlreadyDestroyed⟩ ⟨false, false⟩ (cacheDestroy c) 0 ∧
    cacheDestroy (cacheDestroy c) = cacheDestroy c ∧
    (cacheDestroy c).promises = none := by
  refine ⟨?_, rfl, rfl⟩
  simp [Memoize.cacheExecute, helperIsComparable, hk, Memoize.cachePromise, Memoize.cacheDestroy]

/-- C2 (amended) witness: a concrete destroyed cache with an int key. -/
theorem c2_destroyed_amended_witness :
    Memoize.cacheExecute (cacheDestroy baseCache) ctxPlain (some kInt) (some fnConst) =
      .fin ⟨none, some .cacheAlreadyDestroyed⟩ ⟨false, false⟩ (cacheDestroy baseCache) 0 ∧
    cacheDestroy (cacheDestroy baseCache) = cacheDestroy baseCache ∧
    (cacheDestroy baseCache).promises = none :=
  c2_destroyed_amended baseCache ctxPlain kInt fnConst rfl

/-- C3 counterexample: the claim quantifies over every subsequent
`Execute(ctx, k, fn)`, but `promise.get` returns `{nil, ctx.Err()}` before
looking at the promise when the caller's context is already cancelled, so a
caller with a cancelled context does not receive the pre-populated outcome. -/
theorem c3_prepopulate_counterexample :
    Memoize.cacheExecute cacheP ctxCancelled (some kInt) (some fnConst) =
      .fin ⟨none, some .ctxCanceled⟩ ⟨true, false⟩ cacheP 0 ∧
    (⟨none, some .ctxCanceled⟩ : Memoize.Outcome) ≠ outcome0 :=
  ⟨rfl, by decide⟩

/-- C3 (amended).  Pre-population dominance for callers whose context is not
already cancelled: on a non-destroyed cache, `take` installs at key `k` a
pre-completed promise carrying `outcome_0` (overwriting any existing promise
at `k`), and executing on any non-destroyed cache that holds a completed
promise for a comparable key `k`, with a caller context whose `Err()` is nil,
returns that promise's outcome with `Extra {IsMemoized: true, IsExecuted:
false}`, never invokes `fn`, and leaves the completed promise in place. -/
theorem c3_prepopulate_amended (c : Memoize.Cache) (k : GoVal) (o0 : Memoize.Outcome)
    (t : String) (ctx : GoCtx) (fn : Memoize.Function)
    (hc : c.isDestroyed = false) :
    mapLookup ((cacheTake c [(some k, o0)]).promises.getD []) k
      = some (completedPromise k.ty.name o0) ∧
    (ctx.err = none → k.ty.comparable = true →
      mapLookup (c.promises.getD []) k = some (completedPromise t o0) →
      ∃ c1, Memoize.cacheExecute c ctx (some k) (some fn) = .fin o0 ⟨true, false⟩ c1 0 ∧
        mapLookup (c1.promises.getD []) k = some (completedPromise t o0)) := by
  constructor
  · simp [Memoize.cacheTake, hc, Memoize.extractExecutionKeyType, mapLookup_mapInsert_self]
  · intro he hk hfound
    refine ⟨{ c with promises := some (mapInsert (c.promises.getD []) k (completedPromise t o0)) }, ?_, ?_⟩
    · simp [Memoize.cacheExecute, helperIsComparable, hk, Memoize.cachePromise, hc, hfound,
        Memoize.promiseGet, he, Memoize.completedPromise, Memoize.Promise.isExecuted]
    · simp [mapLookup_mapInsert_self]

/-- C3 (amended) witness: concrete pre-populated cache, uncancelled caller. -/
theorem c3_prepopulate_amended_witness :
    mapLookup ((cacheTake baseCache [(some kInt, outcome0)]).promises.getD []) kInt
      = some (completedPromise kInt.ty.name outcome0) ∧
    (ctxPlain.err = none → kInt.ty.comparable = true →
      mapLookup (baseCache.promises.getD []) kInt = some (completedPromise "int" outcome0) →
      ∃ c1, Memoize.cacheExecute baseCache ctxPlain (some kInt) (some fnConst) =
          .fin outcome0 ⟨true, false⟩ c1 0 ∧
        mapLookup (c1.promises.getD []) kInt = some (completedPromise "int" outcome0)) :=
  c3_prepopulate_amended baseCache kInt outcome0 "int" ctxPlain fnConst rfl

/-- C10.  Cancelled-caller edge: on a non-destroyed cache, for a comparable
key not yet in the promise table and a non-nil `fn`, executing with a caller
context that is already cancelled returns `{nil, ctx.Err()}` with
`Extra {IsMemoized: true, IsExecuted: false}`, does not invoke `fn`, and
nevertheless installs into the table a promise for the key holding `fn` in
the `IsCreated` state. -/
theorem c10_cancelled_caller_installs (c : Memoize.Cache) (ctx : GoCtx) (k : GoVal)
    (fn : Memoize.Function) (e : GoError) (hc : c.isDestroyed = false)
    (he : ctx.err = some e) (hk : k.ty.comparable = true)
    (habs : mapLookup (c.promises.getD []) k = none) :
    ∃ c1, Memoize.cacheExecute c ctx (some k) (some fn) =
        .fin ⟨none, some e⟩ ⟨true, false⟩ c1 0 ∧
      mapLookup (c1.promises.getD []) k = some (newPromise k.ty.name c.rootCtx fn) ∧
      (newPromise k.ty.name c.rootCtx fn).state = .isCreated ∧
      (newPromise k.ty.name c.rootCtx fn).function = some fn := by
  refine ⟨{ c with promises := some (mapInsert (mapInsert (c.promises.getD []) k (newPromise k.ty.name c.rootCtx fn)) k (newPromise k.ty.name c.rootCtx fn)) }, ?_, ?_, rfl, rfl⟩
  · simp [Memoize.cacheExecute, helperIsComparable, hk, Memoize.cachePromise, hc, habs,
      Memoize.createPromise, Memoize.promiseGet, he, Memoize.extractExecutionKeyType,
      Memoize.newPromise, Memoize.Promise.isExecuted]
  · simp [mapLookup_mapInsert_self, Memoize.extractExecutionKeyType]

/-- C10 witness: a concrete cancelled caller on a fresh cache. -/
theorem c10_cancelled_caller_installs_witness :
    ∃ c1, Memoize.cacheExecute baseCache ctxCancelled (some kInt) (some fnConst) =
        .fin ⟨none, some .ctxCanceled⟩ ⟨true, false⟩ c1 0 ∧
      mapLookup (c1.promises.getD []) kInt
        = some (newPromise kInt.ty.name baseCache.rootCtx fnConst) ∧
      (newPromise kInt.ty.name baseCache.rootCtx fnConst).state = .isCreated ∧
      (newPromise kInt.ty.name baseCache.rootCtx fnConst).function = some fnConst :=
  c10_cancelled_caller_installs baseCache ctxCancelled kInt fnConst .ctxCanceled rfl rfl rfl rfl

/-- C8.  findPromises filtering: on a non-destroyed cache, `findPromises(nil)`
returns a fresh map holding exactly the entries of the promise table;
`findPromises(key)` for a non-nil key returns a map whose entries are exactly
the table entries whose promise's stored `executionKeyType` string equals the
key's reflected dynamic-type string; on a destroyed cache `findPromises`
returns nil for every argument. -/
theorem c8_findPromises_filtering (c : Memoize.Cache) (k : GoVal)
    (hc : c.isDestroyed = false) :
    Memoize.cacheFindPromises c none = some (c.promises.getD []) ∧
    (∃ m, Memoize.cacheFindPromises c (some k) = some m ∧
      ∀ kk p, ((kk, p) ∈ m ↔
        ((kk, p) ∈ c.promises.getD [] ∧ p.executionKeyType = k.ty.name))) ∧
    (∀ c' : Memoize.Cache, c'.isDestroyed = true →
      ∀ k' : Option GoVal, Memoize.cacheFindPromises c' k' = none) := by
  refine ⟨?_, ⟨(c.promises.getD []).filter
    (fun e => e.2.executionKeyType == k.ty.name), ?_, ?_⟩, ?_⟩
  · simp [Memoize.cacheFindPromises, hc, filter_true_promMap]
  · simp [Memoize.cacheFindPromises, hc, Memoize.extractExecutionKeyType]
  · intro kk p
    simp [List.mem_filter]
  · intro c' hd k'
    simp [Memoize.cacheFindPromises, hd]

/-- C8 witness: the pre-populated concrete cache with an int exemplar key. -/
theorem c8_findPromises_filtering_witness :
    Memoize.cacheFindPromises cacheP none = some (cacheP.promises.getD []) ∧
    (∃ m, Memoize.cacheFindPromises cacheP (some kInt) = some m ∧
      ∀ kk p, ((kk, p) ∈ m ↔
        ((kk, p) ∈ cacheP.promises.getD [] ∧ p.executionKeyType = kInt.ty.name))) ∧
    (∀ c' : Memoize.Cache, c'.isDestroyed = true →
      ∀ k' : Option GoVal, Memoize.cacheFindPromises c' k' = none) :=
  c8_findPromises_filtering cacheP kInt rfl

/-- findPrevBreadcrumb is the first breadcrumb of the incoming ID's dynamic
type along the `parentCtx` walk. -/
theorem findPrev_eq_find : ∀ (c : Option Cext.Breadcrumb) (id : GoVal),
    Cext.findPrevBreadcrumb c id = (Cext.parentChain c).find? (fun b => b.id.ty == id.ty)
  | none, _ => by simp [Cext.findPrevBreadcrumb, Cext.parentChain]
  | some (.node i p q), id => by
      rw [show Cext.parentChain (some (.node i p q)) = .node i p q :: Cext.parentChain p from
        by simp [Cext.parentChain]]
      by_cases h : i.ty = id.ty
      · rw [List.find?_cons_of_pos _ (by simp [Cext.Breadcrumb.id, h])]
        simp [Cext.findPrevBreadcrumb, helperIsSameType, h]
      · rw [List.find?_cons_of_neg _ (by simp [Cext.Breadcrumb.id, h])]
        rw [show Cext.findPrevBreadcrumb (some (.node i p q)) id
            = Cext.findPrevBreadcrumb p id from by
          simp [Cext.findPrevBreadcrumb, helperIsSameType, h]]
        exact findPrev_eq_find p id

/-- the loop of appendBreadcrumb finds the ID exactly when some breadcrumb
along the `prev` walk carries a Go-equal ID. -/
theorem prevChainContains_iff : ∀ (q : Option Cext.Breadcrumb) (id : GoVal),
    Cext.prevChainContains q id = true ↔ ∃ b ∈ Cext.prevChain q, b.id = id
  | none, _ => by simp [Cext.prevChainContains, Cext.prevChain]
  | some (.node i p q), id => by
      rw [show Cext.prevChainContains (some (.node i p q)) id
          = ((i == id) || Cext.prevChainContains q id) from by simp [Cext.prevChainContains]]
      rw [show Cext.prevChain (some (.node i p q)) = .node i p q :: Cext.prevChain q from
        by simp [Cext.prevChain]]
      simp [prevChainContains_iff q id, Cext.Breadcrumb.id]

/-- a successful WithAcyclicBreadcrumb returns exactly the node built from
the incoming ID, the current context chain and the same-typed predecessor. -/
theorem wab_ok_inv (c : Option Cext.Breadcrumb) (id : GoVal) (b : Cext.Breadcrumb)
    (h : Cext.WithAcyclicBreadcrumb c id = .ok b) :
    b = .node id c (Cext.findPrevBreadcrumb c id) := by
  unfold Cext.WithAcyclicBreadcrumb Cext.appendBreadcrumb at h
  by_cases hc : helperIsComparable (some id) = false
  · simp [hc] at h
  · by_cases hcon : Cext.prevChainContains (Cext.findPrevBreadcrumb c id) id = true
    · simp [hc, hcon] at h
    · simp [hc, hcon] at h
      exact h.symm

/-- for a comparable ID, WithAcyclicBreadcrumb reports a cycle exactly when
the appendBreadcrumb loop finds the ID along the `prev` walk. -/
theorem wab_cycle_iff (c : Option Cext.Breadcrumb) (id : GoVal)
    (hcomp : id.ty.comparable = true) :
    Cext.WithAcyclicBreadcrumb c id = .cycle ↔
      Cext.prevChainContains (Cext.findPrevBreadcrumb c id) id = true := by
  unfold Cext.WithAcyclicBreadcrumb Cext.appendBreadcrumb
  by_cases hcon : Cext.prevChainContains (Cext.findPrevBreadcrumb c id) id = true
  · simp [helperIsComparable, hcomp, hcon]
  · simp [helperIsComparable, hcomp, hcon]

/-- for a comparable ID, WithAcyclicBreadcrumb either reports a cycle or
succeeds with the appended node. -/
theorem wab_cases (c : Option Cext.Breadcrumb) (id : GoVal)
    (hcomp : id.ty.comparable = true) :
    Cext.WithAcyclicBreadcrumb c id = .cycle ∨
      Cext.WithAcyclicBreadcrumb c id = .ok (.node id c (Cext.findPrevBreadcrumb c id)) := by
  unfold Cext.WithAcyclicBreadcrumb Cext.appendBreadcrumb
  by_cases hcon : Cext.prevChainContains (Cext.findPrevBreadcrumb c id) id = true
  · left
    simp [helperIsComparable, hcomp, hcon]
  · right
    simp [helperIsComparable, hcomp, hcon]

/-- on chains built by the package API, the `prev` walk from the nearest
same-typed breadcrumb visits exactly the same-typed breadcrumbs of the whole
ancestor chain. -/
theorem prevChain_findPrev_eq_filter (c : Option Cext.Breadcrumb) (hwf : Cext.WFChain c) :
    ∀ id : GoVal, Cext.prevChain (Cext.findPrevBreadcrumb c id)
      = (Cext.parentChain c).filter (fun b => b.id.ty == id.ty) := by
  induction hwf with
  | nil =>
      intro id
      simp [Cext.findPrevBreadcrumb, Cext.prevChain, Cext.parentChain]
  | push c0 id0 b hwf0 hok ih =>
      intro id
      have hb := wab_ok_inv c0 id0 b hok
      subst hb
      rw [show Cext.parentChain (some (.node id0 c0 (Cext.findPrevBreadcrumb c0 id0)))
          = .node id0 c0 (Cext.findPrevBreadcrumb c0 id0) :: Cext.parentChain c0 from
        by simp [Cext.parentChain]]
      by_cases h : id0.ty = id.ty
      · rw [show Cext.findPrevBreadcrumb
              (some (.node id0 c0 (Cext.findPrevBreadcrumb c0 id0))) id
            = some (.node id0 c0 (Cext.findPrevBreadcrumb c0 id0)) from by
          simp [Cext.findPrevBreadcrumb, helperIsSameType, h]]
        rw [show Cext.prevChain (some (.node id0 c0 (Cext.findPrevBreadcrumb c0 id0)))
            = .node id0 c0 (Cext.findPrevBreadcrumb c0 id0)
                :: Cext.prevChain (Cext.findPrevBreadcrumb c0 id0) from
          by simp [Cext.prevChain]]
        rw [List.filter_cons_of_pos (by simp [Cext.Breadcrumb.id, h])]
        rw [ih id0]
        refine congrArg _ (List.filter_congr ?_)
        intro x _
        rw [h]
      · rw [show Cext.findPrevBreadcrumb
              (some (.node id0 c0 (Cext.findPrevBreadcrumb c0 id0))) id
            = Cext.findPrevBreadcrumb c0 id from by
          simp [Cext.findPrevBreadcrumb, helperIsSameType, h]]
        rw [List.filter_cons_of_neg (by simp [Cext.Breadcrumb.id, h])]
        exact ih id

/-- C7.  Breadcrumb type-scoped acyclicity: on any context whose breadcrumb
chain was built through the package API, for a comparable ID,
`WithAcyclicBreadcrumb` returns `(nil, false)` exactly when a breadcrumb
whose ID equals the incoming one (same dynamic type and equal value) already
exists among the context's breadcrumb ancestors; an ID whose dynamic type
matches no ancestor never fails on value identity alone; and on success the
returned context carries a new breadcrumb node holding the ID, whose
`parentCtx` is the previous chain and whose `prev` is the nearest same-typed
ancestor. -/
theorem c7_breadcrumb_acyclicity (c : Option Cext.Breadcrumb) (id : GoVal)
    (hwf : Cext.WFChain c) (hcomp : id.ty.comparable = true) :
    (Cext.WithAcyclicBreadcrumb c id = .cycle ↔ ∃ b ∈ Cext.parentChain c, b.id = id) ∧
    ((∀ b ∈ Cext.parentChain c, b.id.ty ≠ id.ty) →
      ∃ nb, Cext.WithAcyclicBreadcrumb c id = .ok nb) ∧
    (∀ nb, Cext.WithAcyclicBreadcrumb c id = .ok nb →
      nb.id = id ∧ nb.parentCtx = c ∧
      nb.prev = (Cext.parentChain c).find? (fun b => b.id.ty == id.ty)) := by
  have hiff : Cext.WithAcyclicBreadcrumb c id = .cycle ↔
      ∃ b ∈ Cext.parentChain c, b.id = id := by
    rw [wab_cycle_iff c id hcomp, prevChainContains_iff, prevChain_findPrev_eq_filter c hwf id]
    constructor
    · rintro ⟨b, hb, hid⟩
      exact ⟨b, (List.mem_filter.mp hb).1, hid⟩
    · rintro ⟨b, hb, hid⟩
      exact ⟨b, List.mem_filter.mpr ⟨hb, by simp [hid]⟩, hid⟩
  refine ⟨hiff, ?_, ?_⟩
  · intro hnone
    rcases wab_cases c id hcomp with hcy | hok
    · rcases hiff.mp hcy with ⟨b, hb, hid⟩
      exact absurd (by rw [hid]) (hnone b hb)
    · exact ⟨_, hok⟩
  · intro nb hok
    have hb := wab_ok_inv c id nb hok
    subst hb
    exact ⟨rfl, rfl, by
      rw [show (Cext.Breadcrumb.node id c (Cext.findPrevBreadcrumb c id)).prev
          = Cext.findPrevBreadcrumb c id from rfl]
      exact findPrev_eq_find c id⟩

/-- C7 witness: the chain built by inserting `bcA1` then `bcA2` (scenario E5),
probed with `bcA1`, whose re-insertion is a cycle. -/
theorem c7_breadcrumb_acyclicity_witness :
    (Cext.WithAcyclicBreadcrumb (some bcNode2) bcA1 = .cycle ↔
      ∃ b ∈ Cext.parentChain (some bcNode2), b.id = bcA1) ∧
    ((∀ b ∈ Cext.parentChain (some bcNode2), b.id.ty ≠ bcA1.ty) →
      ∃ nb, Cext.WithAcyclicBreadcrumb (some bcNode2) bcA1 = .ok nb) ∧
    (∀ nb, Cext.WithAcyclicBreadcrumb (some bcNode2) bcA1 = .ok nb →
      nb.id = bcA1 ∧ nb.parentCtx = some bcNode2 ∧
      nb.prev = (Cext.parentChain (some bcNode2)).find? (fun b => b.id.ty == bcA1.ty)) :=
  c7_breadcrumb_acyclicity (some bcNode2) bcA1
    (Cext.WFChain.push (some bcNode1) bcA2 bcNode2
      (Cext.WFChain.push none bcA1 bcNode1 Cext.WFChain.nil (by
        simp [Cext.WithAcyclicBreadcrumb, Cext.appendBreadcrumb, Cext.findPrevBreadcrumb,
          Cext.prevChainContains, helperIsComparable, bcA1, bcNode1]))
      (by
        simp [Cext.WithAcyclicBreadcrumb, Cext.appendBreadcrumb, Cext.findPrevBreadcrumb,
          Cext.prevChainContains, helperIsComparable, helperIsSameType,
          bcA1, bcA2, bcNode1, bcNode2]))
    rfl

/-- storage lookups do not change when a map whose reference is held nowhere
along the storage chain is mutated. -/
theorem storageGet_mutate : ∀ (st : Dvow.StorageM) (h : Dvow.Heap) (mref : Nat)
    (m : Dvow.VarMap) (name : String),
    (∀ r ∈ Dvow.storageRefs st, r ≠ mref) →
    Dvow.storageGet (Dvow.mutateMap h mref m) st name = Dvow.storageGet h st name
  | .mk none vref, h, mref, m, name, hne => by
      have hv : vref ≠ mref := hne vref (by simp [Dvow.storageRefs])
      simp [Dvow.storageGet, Dvow.mutateMap, Dvow.updateData, hv]
  | .mk (some s) vref, h, mref, m, name, hne => by
      have hv : vref ≠ mref := hne vref (by simp [Dvow.storageRefs])
      have ih := storageGet_mutate s h mref m name
        (fun r hr => hne r (by simp [Dvow.storageRefs, hr]))
      simp only [Dvow.storageGet, Dvow.mutateMap, Dvow.updateData]
      rw [if_neg hv]
      cases Dvow.varLookup (h.data vref) name with
      | some v => rfl
      | none =>
          simpa [Dvow.mutateMap, Dvow.updateData] using ih

/-- C9.  Overwrite copy semantics: attaching a non-empty input map copies its
entries into a freshly allocated map, so any later mutation of the input map
through the caller's reference leaves every subsequent `GetOverwrittenValue`
(hence `storage.Get`) on the derived context unchanged.  The hypothesis that
no storage already on the context holds the caller's reference is an
invariant of the library: every storage node is built by
`WithOverwrittenVariables` around a fresh clone that is never handed back to
callers. -/
theorem c9_overwrite_copy_semantics (h : Dvow.Heap) (s : Option Dvow.StorageM)
    (mref : Nat) (newM : Dvow.VarMap) (name : String)
    (hvalid : mref < h.next)
    (hnoalias : ∀ r ∈ Dvow.storageRefsOpt s, r ≠ mref)
    (hnonempty : (h.data mref).isEmpty = false) :
    (Dvow.WithOverwrittenVariables h s mref).2 = some (.mk s h.next) ∧
    (Dvow.WithOverwrittenVariables h s mref).1.data h.next = h.data mref ∧
    Dvow.GetOverwrittenValue
        (Dvow.mutateMap (Dvow.WithOverwrittenVariables h s mref).1 mref newM)
        (Dvow.WithOverwrittenVariables h s mref).2 name
      = Dvow.GetOverwrittenValue (Dvow.WithOverwrittenVariables h s mref).1
          (Dvow.WithOverwrittenVariables h s mref).2 name := by
  have hw : Dvow.WithOverwrittenVariables h s mref
      = (⟨Dvow.updateData h.data h.next (h.data mref), h.next + 1⟩, some (.mk s h.next)) := by
    simp [Dvow.WithOverwrittenVariables, hnonempty]
  refine ⟨by rw [hw], by rw [hw]; simp [Dvow.updateData], ?_⟩
  rw [hw]
  show Dvow.storageGet _ (.mk s h.next) name = Dvow.storageGet _ (.mk s h.next) name
  apply storageGet_mutate
  intro r hr
  rw [show Dvow.storageRefs (.mk s h.next)
      = h.next :: Dvow.storageRefsOpt s from by
    cases s <;> simp [Dvow.storageRefs, Dvow.storageRefsOpt]] at hr
  rcases List.mem_cons.mp hr with hr | hr
  · exact hr ▸ Nat.ne_of_gt hvalid
  · exact hnoalias r hr

/-- C9 witness: scenario E6 — attach `{"test" -> "random"}`, then mutate the
input map by adding a `new_key` entry; lookups through the derived context
are unchanged. -/
theorem c9_overwrite_copy_semantics_witness :
    (Dvow.WithOverwrittenVariables heapE6 none 0).2 = some (.mk none heapE6.next) ∧
    (Dvow.WithOverwrittenVariables heapE6 none 0).1.data heapE6.next = heapE6.data 0 ∧
    Dvow.GetOverwrittenValue
        (Dvow.mutateMap (Dvow.WithOverwrittenVariables heapE6 none 0).1 0
          [("test", some ⟨⟨"string", true⟩, 42⟩), ("new_key", some ⟨⟨"string", true⟩, 7⟩)])
        (Dvow.WithOverwrittenVariables heapE6 none 0).2 "new_key"
      = Dvow.GetOverwrittenValue (Dvow.WithOverwrittenVariables heapE6 none 0).1
          (Dvow.WithOverwrittenVariables heapE6 none 0).2 "new_key" :=
  c9_overwrite_copy_semantics heapE6 none 0
    [("test", some ⟨⟨"string", true⟩, 42⟩), ("new_key", some ⟨⟨"string", true⟩, 7⟩)]
    "new_key" (by decide) (by intro r hr; simp [Dvow.storageRefsOpt] at hr) rfl

/-- the invariant holds initially. -/
theorem sysInv_init (M : Nat) : Memoize.SysInv (Memoize.initSys M) := by
  constructor <;> simp [Memoize.initSys]

/-- the invariant is preserved by every step of the system. -/
theorem sysInv_step {M : Nat} {s s' : Memoize.PSys M}
    (hinv : Memoize.SysInv s) (hstep : Memoize.Step M s s') : Memoize.SysInv s' := by
  obtain ⟨h1, h2, h3, h4, h5, h6, h7⟩ := hinv
  cases hstep with
  | cancel i =>
      refine ⟨h1, h2, h3, h4, h5, h6, ?_⟩
      intro j hj
      by_cases hji : j = i
      · simp [Memoize.setCancelled, hji]
      · simp only [Memoize.setCancelled, if_neg hji]
        exact h7 j hj
  | checkCancelled i hi hc =>
      refine ⟨h1, h2, h3, h4, h5, ?_, ?_⟩
      · intro j o hj
        by_cases hji : j = i
        · subst hji; simp [Memoize.setThread] at hj
        · simp only [Memoize.setThread, if_neg hji] at hj
          exact h6 j o hj
      · intro j hj
        by_cases hji : j = i
        · subst hji; exact hc
        · simp only [Memoize.setThread, if_neg hji] at hj
          exact h7 j hj
  | checkOk i hi hc =>
      refine ⟨h1, h2, h3, h4, h5, ?_, ?_⟩
      · intro j o hj
        by_cases hji : j = i
        · subst hji; simp [Memoize.setThread] at hj
        · simp only [Memoize.setThread, if_neg hji] at hj
          exact h6 j o hj
      · intro j hj
        by_cases hji : j = i
        · subst hji; simp [Memoize.setThread] at hj
        · simp only [Memoize.setThread, if_neg hji] at hj
          exact h7 j hj
  | casWin i hi hp =>
      have widle : s.worker = .idle := h3.mpr hp
      have hdone : s.doneClosed = false := by
        cases hdc : s.doneClosed with
        | false => rfl
        | true => rw [widle] at h5; simp [hdc] at h5
      refine ⟨h1, ?_, by simp, h4, by simp [hdone], ?_, ?_⟩
      · constructor
        · intro _
          exact h2.mp (Or.inl widle)
        · intro _
          exact Or.inr rfl
      · intro j o hj
        by_cases hji : j = i
        · subst hji; simp [Memoize.setThread] at hj
        · simp only [Memoize.setThread, if_neg hji] at hj
          exact h6 j o hj
      · intro j hj
        by_cases hji : j = i
        · subst hji; simp [Memoize.setThread] at hj
        · simp only [Memoize.setThread, if_neg hji] at hj
          exact h7 j hj
  | casLose i hi hp =>
      refine ⟨h1, h2, h3, h4, h5, ?_, ?_⟩
      · intro j o hj
        by_cases hji : j = i
        · subst hji; simp [Memoize.setThread] at hj
        · simp only [Memoize.setThread, if_neg hji] at hj
          exact h6 j o hj
      · intro j hj
        by_cases hji : j = i
        · subst hji; simp [Memoize.setThread] at hj
        · simp only [Memoize.setThread, if_neg hji] at hj
          exact h7 j hj
  | invoke o hw =>
      have hz : s.invocations = 0 := h2.mp (Or.inr hw)
      have hnidle : s.pstate ≠ .isCreated := by
        intro hp
        rw [h3.mpr hp] at hw
        cases hw
      have hdone : s.doneClosed = false := by
        cases hdc : s.doneClosed with
        | false => rfl
        | true => rw [h5.mpr hdc] at hw; cases hw
      refine ⟨by simp [hz], by simp [hz], by simp [hnidle], h4, by simp [hdone], h6, h7⟩
  | publish o hw =>
      have hnz : s.invocations ≠ 0 := by
        intro hz
        rcases h2.mpr hz with h | h <;> rw [h] at hw <;> cases hw
      have hnidle : s.pstate ≠ .isCreated := by
        intro hp
        rw [h3.mpr hp] at hw
        cases hw
      refine ⟨h1, by simp [hnz], by simp [hnidle], by simp, by simp, ?_, h7⟩
      intro j o0 hj
      exfalso
      have hout := h6 j o0 hj
      have hdc : s.doneClosed = true := h4.mpr (by simp [hout])
      rw [h5.mpr hdc] at hw
      cases hw
  | waitDone i o hi hdc hout =>
      refine ⟨h1, h2, h3, h4, h5, ?_, ?_⟩
      · intro j o0 hj
        by_cases hji : j = i
        · subst hji
          simp only [Memoize.setThread, if_pos rfl] at hj
          cases hj
          exact hout
        · simp only [Memoize.setThread, if_neg hji] at hj
          exact h6 j o0 hj
      · intro j hj
        by_cases hji : j = i
        · subst hji; simp [Memoize.setThread] at hj
        · simp only [Memoize.setThread, if_neg hji] at hj
          exact h7 j hj
  | waitCancelled i hi hc =>
      refine ⟨h1, h2, h3, h4, h5, ?_, ?_⟩
      · intro j o hj
        by_cases hji : j = i
        · subst hji; simp [Memoize.setThread] at hj
        · simp only [Memoize.setThread, if_neg hji] at hj
          exact h6 j o hj
      · intro j hj
        by_cases hji : j = i
        · subst hji; exact hc
        · simp only [Memoize.setThread, if_neg hji] at hj
          exact h7 j hj

/-- the invariant holds in every reachable state. -/
theorem sysInv_reachable {M : Nat} {s : Memoize.PSys M}
    (h : Memoize.Reachable M s) : Memoize.SysInv s := by
  induction h with
  | init => exact sysInv_init M
  | step s s' hr hs ih => exact sysInv_step ih hs

/-- C1.  Single-flight: in every state reachable by any interleaving of `M`
concurrent callers of promise.get on one fresh promise (with arbitrary
per-caller context cancellations), the memoized function has been invoked at
most once; any two callers that returned an outcome returned the same
outcome; and a caller whose context was never cancelled cannot have returned
through the cancellation path — so every caller that completes without its
own context being cancelled receives the unique published outcome. -/
theorem c1_single_flight (M : Nat) (s : Memoize.PSys M) (h : Memoize.Reachable M s) :
    s.invocations ≤ 1 ∧
    (∀ i j o1 o2, s.threads i = .retOutcome o1 → s.threads j = .retOutcome o2 → o1 = o2) ∧
    (∀ i, s.cancelled i = false → s.threads i ≠ .retCancelled) := by
  obtain ⟨h1, _, _, _, _, h6, h7⟩ := sysInv_reachable h
  refine ⟨h1, ?_, ?_⟩
  · intro i j o1 o2 hi hj
    exact Option.some.inj ((h6 i o1 hi).symm.trans (h6 j o2 hj))
  · intro i hci hri
    rw [h7 i hri] at hci
    cases hci

/-- C1 witness: the theorem applied to the initial state of two callers. -/
theorem c1_single_flight_witness :
    (Memoize.initSys 2).invocations ≤ 1 ∧
    (∀ i j o1 o2, (Memoize.initSys 2).threads i = .retOutcome o1 →
      (Memoize.initSys 2).threads j = .retOutcome o2 → o1 = o2) ∧
    (∀ i, (Memoize.initSys 2).cancelled i = false →
      (Memoize.initSys 2).threads i ≠ .retCancelled) :=
  c1_single_flight 2 (Memoize.initSys 2) Memoize.Reachable.init
